import Mathlib

/-!
Shallow embedding of `src/pqueue.ts` (`MyConcurrentPromiseQueue`), a
task-admission queue bounded by a concurrency cap and a sliding-window
throughput cap.

Modelling choices:
* Task identifiers (`uuid` in the source) are modelled as natural numbers
  assigned from a fresh counter on submission; uuids are unique, and the
  counter guarantees the same uniqueness.
* Times (`Date.now()`, milliseconds) are naturals.  `Date.now()` is
  non-decreasing, which the trace-validity predicate reflects.
* A `PromiseSupplier` is opaque to the queue except for two observable
  facts: whether invoking it throws synchronously (`throwsSync`), and,
  when it returns a promise, whether that promise eventually fulfills or
  rejects — the latter is carried by the settlement event.
* The JavaScript `Map`s `promisesBeingExecuted` and
  `promiseExecutedCallbacks` are modelled as lists; keys are unique in
  every reachable state (ids are fresh), so list length agrees with
  `Map.size` and `filter (≠ id)` agrees with `Map.delete`.
* Two history fields are added that the source keeps implicitly:
  `settledOutcomes` records every outcome actually delivered through a
  resolution callback (the visible settlements of the handles returned by
  `addPromise`), and `admittedOrder` records the ids in the order
  `execute` moved them from `promisesToExecute` into
  `promisesBeingExecuted`.
* The `while` loop of `execute` is written as structural recursion on a
  fuel argument initialised to the pending-ledger length; every iteration
  that recurses removes one pending task, so the fuel never runs out
  (theorem `executeLoop_fuel_irrelevant` below makes this exact).
-/

/-- A queued task: `QueuedPromise` of the source (`id` plus its
`promiseSupplier`); of the supplier we keep its one queue-observable
synchronous behaviour, whether invoking it throws instead of returning a
promise. -/
structure QueuedPromise where
  id : Nat
  throwsSync : Bool
deriving DecidableEq, Repr

/-- The three recognized options of `QueueOptions`; `none` models an
absent key in the options object. -/
structure QueueOptions where
  maxNumberOfConcurrentPromises : Option Nat := none
  unitOfTimeMillis : Option Nat := none
  maxThroughputPerUnitTime : Option Nat := none
deriving DecidableEq, Repr

/-- The resolved configuration held by the queue's three `readonly`
fields. -/
structure QueueConfig where
  maxNumberOfConcurrentPromises : Nat
  unitOfTimeMillis : Nat
  maxThroughputPerUnitTime : Nat
deriving DecidableEq, Repr

/-- The `defaultOptions` object of the constructor. -/
def defaultOptions : QueueConfig :=
  { maxNumberOfConcurrentPromises := 1
    unitOfTimeMillis := 100
    maxThroughputPerUnitTime := 1000 }

/-- The constructor's option merge
`{ ...defaultOptions, ...options }`: a key present in `options`
overrides the default, an absent key keeps it; an absent options object
keeps every default. -/
def mkQueueConfig (options : Option QueueOptions) : QueueConfig :=
  match options with
  | none => defaultOptions
  | some o =>
      { maxNumberOfConcurrentPromises :=
          o.maxNumberOfConcurrentPromises.getD defaultOptions.maxNumberOfConcurrentPromises
        unitOfTimeMillis := o.unitOfTimeMillis.getD defaultOptions.unitOfTimeMillis
        maxThroughputPerUnitTime :=
          o.maxThroughputPerUnitTime.getD defaultOptions.maxThroughputPerUnitTime }

/-- The mutable state of one `MyConcurrentPromiseQueue` instance, plus
the fresh-id counter, the current clock reading, and the two observable
histories described in the header. -/
structure MyQueue where
  promisesToExecute : List QueuedPromise
  promisesBeingExecuted : List QueuedPromise
  promiseExecutedCallbacks : List Nat
  promiseCompletedTimesLog : List Nat
  settledOutcomes : List (Nat × Bool)
  admittedOrder : List Nat
  nextId : Nat
  now : Nat
deriving DecidableEq, Repr

/-- Source accessor `numberOfQueuedPromises()`. -/
def numberOfQueuedPromises (s : MyQueue) : Nat :=
  s.promisesToExecute.length

/-- Source accessor `numberOfExecutingPromises()`. -/
def numberOfExecutingPromises (s : MyQueue) : Nat :=
  s.promisesBeingExecuted.length

/-- The filter applied to `promiseCompletedTimesLog` by
`canExecuteMorePromises`: keep `time` with
`time.getTime() >= now - unitOfTimeMillis`.  Times are naturals, so the
truncated subtraction agrees with the integer threshold of the source
(a negative threshold keeps everything, as does a zero one). -/
def prunedCompletedTimes (cfg : QueueConfig) (s : MyQueue) : List Nat :=
  s.promiseCompletedTimesLog.filter (fun time => s.now - cfg.unitOfTimeMillis ≤ time)

/-- Source method `canExecuteMorePromises()`: prunes the completion log in place
(returned as the second component) and returns whether both admission
policies allow one more start — both comparisons strict. -/
def canExecuteMorePromises (cfg : QueueConfig) (s : MyQueue) : Bool × MyQueue :=
  (decide (s.promisesBeingExecuted.length < cfg.maxNumberOfConcurrentPromises) &&
      decide ((prunedCompletedTimes cfg s).length < cfg.maxThroughputPerUnitTime),
    { s with promiseCompletedTimesLog := prunedCompletedTimes cfg s })

/-- The `while` loop body of `execute()`.  Each iteration re-runs
`canExecuteMorePromises`, returns when the pending ledger is empty,
otherwise shifts the head, registers it in `promisesBeingExecuted`, and
invokes its supplier: a supplier that throws synchronously aborts the
loop (the surrounding `try`/`catch` swallows the throw), otherwise the
loop continues.  `fuel` only bounds the recursion; `execute` passes the
pending-ledger length, which the loop never exhausts. -/
def executeLoop (cfg : QueueConfig) : Nat → MyQueue → MyQueue
  | fuel, s =>
    let checked := canExecuteMorePromises cfg s
    if checked.1 then
      match checked.2.promisesToExecute with
      | [] => checked.2
      | p :: rest =>
          let s2 : MyQueue :=
            { checked.2 with
                promisesToExecute := rest
                promisesBeingExecuted := checked.2.promisesBeingExecuted ++ [p]
                admittedOrder := checked.2.admittedOrder ++ [p.id] }
          if p.throwsSync then s2
          else
            match fuel with
            | 0 => s2
            | fuel' + 1 => executeLoop cfg fuel' s2
    else checked.2

/-- Source method `execute()`: the admission loop. -/
def execute (cfg : QueueConfig) (s : MyQueue) : MyQueue :=
  executeLoop cfg s.promisesToExecute.length s

/-- Source method `finalizePromise(id)`: release the task from the registry, delete
its callback, record a completion timestamp at the current time, and
re-invoke the admission loop. -/
def finalizePromise (cfg : QueueConfig) (id : Nat) (s : MyQueue) : MyQueue :=
  execute cfg
    { s with
        promisesBeingExecuted := s.promisesBeingExecuted.filter (fun p => p.id ≠ id)
        promiseExecutedCallbacks := s.promiseExecutedCallbacks.filter (fun i => i ≠ id)
        promiseCompletedTimesLog := s.promiseCompletedTimesLog ++ [s.now] }

/-- Source method `onPromiseFulfilled(id, result)`: if a callback for `id` exists it
is invoked with `isSuccess = true` (the handle resolves with the
supplier's value), otherwise the outcome is dropped; then
`finalizePromise`. -/
def onPromiseFulfilled (cfg : QueueConfig) (id : Nat) (s : MyQueue) : MyQueue :=
  let s1 :=
    if id ∈ s.promiseExecutedCallbacks then
      { s with settledOutcomes := s.settledOutcomes ++ [(id, true)] }
    else s
  finalizePromise cfg id s1

/-- Source method `onPromiseRejected(id, error)`: if a callback for `id` exists it is
invoked with `isSuccess = false` (the handle rejects with the supplier's
error), otherwise the outcome is dropped; then `finalizePromise`. -/
def onPromiseRejected (cfg : QueueConfig) (id : Nat) (s : MyQueue) : MyQueue :=
  let s1 :=
    if id ∈ s.promiseExecutedCallbacks then
      { s with settledOutcomes := s.settledOutcomes ++ [(id, false)] }
    else s
  finalizePromise cfg id s1

/-- Source method `addPromise(promiseSupplier)`: assign a fresh id, append the task to
the pending ledger, register its resolution callback, and invoke the
admission loop. -/
def addPromise (cfg : QueueConfig) (throwsSync : Bool) (s : MyQueue) : MyQueue :=
  execute cfg
    { s with
        promisesToExecute := s.promisesToExecute ++ [⟨s.nextId, throwsSync⟩]
        promiseExecutedCallbacks := s.promiseExecutedCallbacks ++ [s.nextId]
        nextId := s.nextId + 1 }

/-- The externally triggered transitions of one queue instance: a caller
submits a task at some clock time, or the promise of an admitted task
settles at some clock time with success or failure. -/
inductive QueueEvent where
  | submit (time : Nat) (throwsSync : Bool)
  | settle (time : Nat) (id : Nat) (isSuccess : Bool)
deriving DecidableEq, Repr

/-- Dispatch one event: set the clock, then run the handler the source
runs (`addPromise`; the `.then` / `.catch` continuation attached in
`execute`). -/
def stepQueue (cfg : QueueConfig) (s : MyQueue) (e : QueueEvent) : MyQueue :=
  match e with
  | .submit time throwsSync => addPromise cfg throwsSync { s with now := time }
  | .settle time id isSuccess =>
      if isSuccess then onPromiseFulfilled cfg id { s with now := time }
      else onPromiseRejected cfg id { s with now := time }

/-- An event is possible in a state when its clock reading does not go
backwards and, for a settlement, the settling promise really is one of an
in-flight task whose supplier returned a promise (a supplier that threw
synchronously produced no promise, hence no settlement; a task settles at
most once because settlement removes it from the registry). -/
def validEvent (s : MyQueue) (e : QueueEvent) : Bool :=
  match e with
  | .submit time _ => s.now ≤ time
  | .settle time id _ =>
      decide (s.now ≤ time) &&
        s.promisesBeingExecuted.any (fun p => p.id == id && !p.throwsSync)

/-- Run a sequence of events. -/
def runQueue (cfg : QueueConfig) (s : MyQueue) (es : List QueueEvent) : MyQueue :=
  es.foldl (stepQueue cfg) s

/-- All events of the trace are possible in the states where they fire. -/
def validTrace (cfg : QueueConfig) (s : MyQueue) : List QueueEvent → Bool
  | [] => true
  | e :: es => validEvent s e && validTrace cfg (stepQueue cfg s e) es

/-- A freshly constructed queue: every structure empty. -/
def initialQueue : MyQueue :=
  { promisesToExecute := []
    promisesBeingExecuted := []
    promiseExecutedCallbacks := []
    promiseCompletedTimesLog := []
    settledOutcomes := []
    admittedOrder := []
    nextId := 0
    now := 0 }

/-- The outcomes the settlement events of a trace carry, in order. -/
def settleEventsOutcomes : List QueueEvent → List (Nat × Bool)
  | [] => []
  | .settle _ id isSuccess :: es => (id, isSuccess) :: settleEventsOutcomes es
  | .submit _ _ :: es => settleEventsOutcomes es

/-- The number of completion timestamps of a state that lie within the
trailing window as seen at instant `t` — the length the pruned
Throughput Log would have at a check run at `t`. -/
def windowCount (cfg : QueueConfig) (t : Nat) (s : MyQueue) : Nat :=
  (s.promiseCompletedTimesLog.filter
    (fun time => t - cfg.unitOfTimeMillis ≤ time)).length

/-- The configuration of the C6 scenario: `maxConcurrent = 1`,
`windowMillis = 100`, `maxThroughputPerWindow = 1`. -/
def cfgC6 : QueueConfig := ⟨1, 100, 1⟩

/-- The C6 scenario's events: two instantly-settling tasks submitted at
time 0; the first is admitted at once and its promise settles at time 0;
the second stays queued, so no further settlement event can ever occur. -/
def traceC6 : List QueueEvent :=
  [.submit 0 false, .submit 0 false, .settle 0 0 true]

/-- The queue state after the C6 scenario's events. -/
def stateC6 : MyQueue := runQueue cfgC6 initialQueue traceC6

/-- Reachable-state well-formedness: all recorded ids were allocated by
the fresh-id counter; an id occurs in at most one of pending ledger,
registry, delivered outcomes; the callback table holds exactly the ids
of pending and in-flight tasks. -/
structure QueueWF (s : MyQueue) : Prop where
  pend_lt : ∀ p ∈ s.promisesToExecute, p.id < s.nextId
  exec_lt : ∀ p ∈ s.promisesBeingExecuted, p.id < s.nextId
  settled_lt : ∀ q ∈ s.settledOutcomes, q.1 < s.nextId
  nodup : (s.promisesToExecute.map QueuedPromise.id
      ++ s.promisesBeingExecuted.map QueuedPromise.id
      ++ s.settledOutcomes.map Prod.fst).Nodup
  cb_char : ∀ i, i ∈ s.promiseExecutedCallbacks ↔
      i ∈ s.promisesToExecute.map QueuedPromise.id
        ∨ i ∈ s.promisesBeingExecuted.map QueuedPromise.id

/-- Pruning an already pruned log changes nothing (the clock does not
move inside one `execute` invocation). -/
theorem prunedCompletedTimes_idem (cfg : QueueConfig) (s : MyQueue) :
    prunedCompletedTimes cfg
        { s with promiseCompletedTimesLog := prunedCompletedTimes cfg s }
      = prunedCompletedTimes cfg s := by
  simp [prunedCompletedTimes, List.filter_filter]

/-- Shape of one admission-loop run: some prefix of the pending ledger
(of length at most the ledger) moves, in order, to the tail of the
registry and of the admission history; the completion log is pruned at
the current clock; nothing else changes. -/
theorem executeLoop_shape (cfg : QueueConfig) :
    ∀ (fuel : Nat) (s : MyQueue),
      ∃ k ≤ s.promisesToExecute.length,
        executeLoop cfg fuel s =
          { s with
              promisesToExecute := s.promisesToExecute.drop k
              promisesBeingExecuted :=
                s.promisesBeingExecuted ++ s.promisesToExecute.take k
              admittedOrder :=
                s.admittedOrder ++ (s.promisesToExecute.take k).map QueuedPromise.id
              promiseCompletedTimesLog := prunedCompletedTimes cfg s } := by
  intro fuel
  induction fuel with
  | zero =>
    intro s
    rw [executeLoop]
    dsimp only [canExecuteMorePromises]
    split
    · split
      next hp =>
        exact ⟨0, Nat.zero_le _, by simp_all⟩
      next p rest hp =>
        refine ⟨1, by simp [hp], ?_⟩
        split <;> simp_all
    · exact ⟨0, Nat.zero_le _, by simp_all⟩
  | succ fuel ih =>
    intro s
    rw [executeLoop]
    dsimp only [canExecuteMorePromises]
    split
    · split
      next hp =>
        exact ⟨0, Nat.zero_le _, by simp_all⟩
      next p rest hp =>
        split
        next => exact ⟨1, by simp [hp], by simp_all⟩
        next =>
          obtain ⟨k, hk, hrun⟩ := ih _
          refine ⟨k + 1, ?bound, ?eq⟩
          case eq =>
            rw [hrun]
            simp_all [prunedCompletedTimes, List.filter_filter]
          case bound =>
            simp only [List.length_cons] at hk ⊢
            simp [hp]
            omega
    · exact ⟨0, Nat.zero_le _, by simp_all⟩

/-- Filtering out an element that is really present strictly shrinks a
list. -/
theorem length_filter_lt_of_mem {α : Type} {l : List α} {p : α → Bool} {a : α}
    (ha : a ∈ l) (hpa : p a = false) : (l.filter p).length < l.length := by
  induction l with
  | nil => cases ha
  | cons b l ih =>
    rcases List.mem_cons.mp ha with rfl | hb
    · simp only [List.filter_cons, hpa, List.length_cons]
      exact Nat.lt_succ_of_le (List.length_filter_le _ _)
    · simp only [List.filter_cons, List.length_cons]
      split
      · exact Nat.succ_lt_succ (ih hb)
      · exact Nat.lt_succ_of_lt (ih hb)

/-- The shape of a full `execute()` invocation (the loop seeded with the
ledger length as fuel). -/
theorem execute_shape (cfg : QueueConfig) (s : MyQueue) :
    ∃ k ≤ s.promisesToExecute.length,
      execute cfg s =
        { s with
            promisesToExecute := s.promisesToExecute.drop k
            promisesBeingExecuted :=
              s.promisesBeingExecuted ++ s.promisesToExecute.take k
            admittedOrder :=
              s.admittedOrder ++ (s.promisesToExecute.take k).map QueuedPromise.id
            promiseCompletedTimesLog := prunedCompletedTimes cfg s } :=
  executeLoop_shape cfg s.promisesToExecute.length s

/-- The loop `execute` never delivers an outcome. -/
theorem execute_settledOutcomes (cfg : QueueConfig) (s : MyQueue) :
    (execute cfg s).settledOutcomes = s.settledOutcomes := by
  obtain ⟨k, -, h⟩ := execute_shape cfg s
  rw [h]

/-- The loop `execute` never touches the callback table. -/
theorem execute_promiseExecutedCallbacks (cfg : QueueConfig) (s : MyQueue) :
    (execute cfg s).promiseExecutedCallbacks = s.promiseExecutedCallbacks := by
  obtain ⟨k, -, h⟩ := execute_shape cfg s
  rw [h]

/-- The loop `execute` allocates no ids. -/
theorem execute_nextId (cfg : QueueConfig) (s : MyQueue) :
    (execute cfg s).nextId = s.nextId := by
  obtain ⟨k, -, h⟩ := execute_shape cfg s
  rw [h]

/-- The loop `execute` does not move the clock. -/
theorem execute_now (cfg : QueueConfig) (s : MyQueue) :
    (execute cfg s).now = s.now := by
  obtain ⟨k, -, h⟩ := execute_shape cfg s
  rw [h]

/-- The loop `execute` moves ids from the head of the pending ledger to the tail
of the admission history: their concatenation is unchanged. -/
theorem execute_admitted_append_pending (cfg : QueueConfig) (s : MyQueue) :
    (execute cfg s).admittedOrder
        ++ ((execute cfg s).promisesToExecute.map QueuedPromise.id)
      = s.admittedOrder ++ (s.promisesToExecute.map QueuedPromise.id) := by
  obtain ⟨k, -, h⟩ := execute_shape cfg s
  rw [h]
  simp only [List.append_assoc, ← List.map_append, List.take_append_drop]

/-- The loop `execute` permutes the tasks of `promisesToExecute` and
`promisesBeingExecuted` among those two structures and nothing else. -/
theorem execute_union_perm (cfg : QueueConfig) (s : MyQueue) :
    ((execute cfg s).promisesToExecute ++ (execute cfg s).promisesBeingExecuted).Perm
      (s.promisesToExecute ++ s.promisesBeingExecuted) := by
  obtain ⟨k, -, h⟩ := execute_shape cfg s
  rw [h]
  calc (s.promisesToExecute.drop k
          ++ (s.promisesBeingExecuted ++ s.promisesToExecute.take k)).Perm
        ((s.promisesToExecute.take k ++ s.promisesToExecute.drop k)
          ++ s.promisesBeingExecuted) := by
        refine List.perm_append_comm.trans ?_
        refine (List.Perm.append_right _ List.perm_append_comm).trans ?_
        rw [List.append_assoc, List.append_assoc]
        exact List.Perm.append_left _ List.perm_append_comm
    _ = s.promisesToExecute ++ s.promisesBeingExecuted := by
        rw [List.take_append_drop]

/-- A task already registered stays registered across `execute` (the
loop only appends to the registry). -/
theorem execute_mem_executing (cfg : QueueConfig) (s : MyQueue)
    {p : QueuedPromise} (hp : p ∈ s.promisesBeingExecuted) :
    p ∈ (execute cfg s).promisesBeingExecuted := by
  obtain ⟨k, -, h⟩ := execute_shape cfg s
  rw [h]
  exact List.mem_append_left _ hp

/-- Registry bound for one loop run: each insertion is guarded by
`size < maxNumberOfConcurrentPromises`, so the registry never grows past
the larger of its entry size and the cap. -/
theorem executeLoop_executing_le (cfg : QueueConfig) :
    ∀ (fuel : Nat) (s : MyQueue),
      (executeLoop cfg fuel s).promisesBeingExecuted.length ≤
        max s.promisesBeingExecuted.length cfg.maxNumberOfConcurrentPromises := by
  intro fuel
  induction fuel with
  | zero =>
    intro s
    rw [executeLoop]
    dsimp only [canExecuteMorePromises]
    split
    next hok =>
      simp only [Bool.and_eq_true, decide_eq_true_eq] at hok
      split
      next => exact Nat.le_max_left _ _
      next p rest hp =>
        split <;>
          · simp only [List.length_append, List.length_cons, List.length_nil]
            omega
    next => exact Nat.le_max_left _ _
  | succ fuel ih =>
    intro s
    rw [executeLoop]
    dsimp only [canExecuteMorePromises]
    split
    next hok =>
      simp only [Bool.and_eq_true, decide_eq_true_eq] at hok
      split
      next => exact Nat.le_max_left _ _
      next p rest hp =>
        split
        next =>
          simp only [List.length_append, List.length_cons, List.length_nil]
          omega
        next =>
          refine le_trans (ih _) ?_
          simp only [List.length_append, List.length_cons, List.length_nil]
          omega
    next => exact Nat.le_max_left _ _

/-- Combined bound for one loop run: admission requires both
`pruned log length < maxThroughputPerUnitTime` and
`registry size < maxNumberOfConcurrentPromises`, so the sum
`log length + registry size` never grows past the larger of its entry
value and `(maxThroughputPerUnitTime - 1) + maxNumberOfConcurrentPromises`. -/
theorem executeLoop_sum_le (cfg : QueueConfig) :
    ∀ (fuel : Nat) (s : MyQueue),
      (executeLoop cfg fuel s).promiseCompletedTimesLog.length
          + (executeLoop cfg fuel s).promisesBeingExecuted.length ≤
        max (s.promiseCompletedTimesLog.length + s.promisesBeingExecuted.length)
          ((cfg.maxThroughputPerUnitTime - 1) + cfg.maxNumberOfConcurrentPromises) := by
  intro fuel
  induction fuel with
  | zero =>
    intro s
    rw [executeLoop]
    dsimp only [canExecuteMorePromises]
    split
    next hok =>
      simp only [Bool.and_eq_true, decide_eq_true_eq] at hok
      split
      next =>
        have := List.length_filter_le
          (fun time => decide (s.now - cfg.unitOfTimeMillis ≤ time))
          s.promiseCompletedTimesLog
        simp only [prunedCompletedTimes] at *
        omega
      next p rest hp =>
        obtain ⟨h1, h2⟩ := hok
        simp only [prunedCompletedTimes] at h2
        split <;>
          · simp only [prunedCompletedTimes, List.length_append, List.length_cons,
              List.length_nil]
            omega
    next =>
      have := List.length_filter_le
        (fun time => decide (s.now - cfg.unitOfTimeMillis ≤ time))
        s.promiseCompletedTimesLog
      simp only [prunedCompletedTimes] at *
      omega
  | succ fuel ih =>
    intro s
    rw [executeLoop]
    dsimp only [canExecuteMorePromises]
    split
    next hok =>
      simp only [Bool.and_eq_true, decide_eq_true_eq] at hok
      split
      next =>
        have := List.length_filter_le
          (fun time => decide (s.now - cfg.unitOfTimeMillis ≤ time))
          s.promiseCompletedTimesLog
        simp only [prunedCompletedTimes] at *
        omega
      next p rest hp =>
        obtain ⟨h1, h2⟩ := hok
        simp only [prunedCompletedTimes] at h2
        split
        next =>
          simp only [prunedCompletedTimes, List.length_append, List.length_cons,
            List.length_nil]
          omega
        next =>
          refine le_trans (ih _) ?_
          simp only [prunedCompletedTimes, List.length_append, List.length_cons,
            List.length_nil]
          omega
    next =>
      have := List.length_filter_le
        (fun time => decide (s.now - cfg.unitOfTimeMillis ≤ time))
        s.promiseCompletedTimesLog
      simp only [prunedCompletedTimes] at *
      omega

/-- What settle-event validity unfolds to: the clock does not go back
and some in-flight task with that id has a supplier that really produced
a promise. -/
theorem validEvent_settle_elim {s : MyQueue} {time id : Nat} {b : Bool}
    (h : validEvent s (.settle time id b) = true) :
    s.now ≤ time ∧
      ∃ p ∈ s.promisesBeingExecuted, p.id = id ∧ p.throwsSync = false := by
  simp only [validEvent, Bool.and_eq_true, decide_eq_true_eq, List.any_eq_true,
    beq_iff_eq, Bool.not_eq_true'] at h
  obtain ⟨h1, p, hp, hid, hth⟩ := h
  exact ⟨h1, p, hp, hid, hth⟩

/-- One event keeps the registry within the concurrency cap. -/
theorem step_executing_le (cfg : QueueConfig) (s : MyQueue) (e : QueueEvent)
    (h : numberOfExecutingPromises s ≤ cfg.maxNumberOfConcurrentPromises) :
    numberOfExecutingPromises (stepQueue cfg s e) ≤ cfg.maxNumberOfConcurrentPromises := by
  cases e with
  | submit time throwsSync =>
    refine le_trans (executeLoop_executing_le cfg _ _) ?_
    simp only [numberOfExecutingPromises] at h
    simp only [max_le_iff]
    omega
  | settle time id isSuccess =>
    simp only [stepQueue, onPromiseFulfilled, onPromiseRejected, finalizePromise,
      numberOfExecutingPromises, execute] at h ⊢
    have hf :
        ((s.promisesBeingExecuted.filter (fun p => p.id ≠ id)).length) ≤
          s.promisesBeingExecuted.length := List.length_filter_le _ _
    split <;>
      · split <;>
          · refine le_trans (executeLoop_executing_le cfg _ _) ?_
            simp only [max_le_iff]
            constructor
            · exact le_trans hf h
            · exact le_rfl

/-- The concurrency bound holds along any event sequence. -/
theorem run_executing_le (cfg : QueueConfig) :
    ∀ (es : List QueueEvent) (s : MyQueue),
      numberOfExecutingPromises s ≤ cfg.maxNumberOfConcurrentPromises →
      numberOfExecutingPromises (runQueue cfg s es) ≤ cfg.maxNumberOfConcurrentPromises := by
  intro es
  induction es with
  | nil => intro s h; exact h
  | cons e es ih => intro s h; exact ih _ (step_executing_le cfg s e h)

/-- One valid event keeps `log length + registry size` within
`(maxThroughputPerUnitTime - 1) + maxNumberOfConcurrentPromises`. -/
theorem step_sum_le (cfg : QueueConfig) (s : MyQueue) (e : QueueEvent)
    (hv : validEvent s e = true)
    (h : s.promiseCompletedTimesLog.length + s.promisesBeingExecuted.length ≤
      (cfg.maxThroughputPerUnitTime - 1) + cfg.maxNumberOfConcurrentPromises) :
    (stepQueue cfg s e).promiseCompletedTimesLog.length
        + (stepQueue cfg s e).promisesBeingExecuted.length ≤
      (cfg.maxThroughputPerUnitTime - 1) + cfg.maxNumberOfConcurrentPromises := by
  cases e with
  | submit time throwsSync =>
    refine le_trans (executeLoop_sum_le cfg _ _) ?_
    simp only [max_le_iff, List.length_append, List.length_cons, List.length_nil]
    omega
  | settle time id isSuccess =>
    obtain ⟨-, p, hp, hid, hth⟩ := validEvent_settle_elim hv
    have hflt :
        ((s.promisesBeingExecuted.filter (fun q => q.id ≠ id)).length) <
          s.promisesBeingExecuted.length := by
      refine length_filter_lt_of_mem hp ?_
      simp [hid]
    simp only [stepQueue, onPromiseFulfilled, onPromiseRejected, finalizePromise, execute]
    split <;>
      · split <;>
          · refine le_trans (executeLoop_sum_le cfg _ _) ?_
            simp only [max_le_iff, List.length_append, List.length_cons, List.length_nil]
            omega

/-- The combined bound holds along any valid event sequence. -/
theorem run_sum_le (cfg : QueueConfig) :
    ∀ (es : List QueueEvent) (s : MyQueue),
      validTrace cfg s es = true →
      s.promiseCompletedTimesLog.length + s.promisesBeingExecuted.length ≤
        (cfg.maxThroughputPerUnitTime - 1) + cfg.maxNumberOfConcurrentPromises →
      (runQueue cfg s es).promiseCompletedTimesLog.length
          + (runQueue cfg s es).promisesBeingExecuted.length ≤
        (cfg.maxThroughputPerUnitTime - 1) + cfg.maxNumberOfConcurrentPromises := by
  intro es
  induction es with
  | nil => intro s _ h; exact h
  | cons e es ih =>
    intro s hv h
    simp only [validTrace, Bool.and_eq_true] at hv
    exact ih _ hv.2 (step_sum_le cfg s e hv.1 h)

/-- One event preserves the FIFO ledger equation: admitted ids followed
by still-pending ids are exactly the ids in submission order. -/
theorem step_admitted_range (cfg : QueueConfig) (s : MyQueue) (e : QueueEvent)
    (h : s.admittedOrder ++ s.promisesToExecute.map QueuedPromise.id
      = List.range s.nextId) :
    (stepQueue cfg s e).admittedOrder
        ++ (stepQueue cfg s e).promisesToExecute.map QueuedPromise.id
      = List.range (stepQueue cfg s e).nextId := by
  cases e with
  | submit time throwsSync =>
    simp only [stepQueue, addPromise]
    rw [execute_admitted_append_pending, execute_nextId]
    simp only [List.map_append, List.map_cons, List.map_nil, List.range_succ,
      ← List.append_assoc, h]
  | settle time id isSuccess =>
    simp only [stepQueue, onPromiseFulfilled, onPromiseRejected, finalizePromise]
    split <;> split <;>
      · rw [execute_admitted_append_pending, execute_nextId]
        exact h

/-- The FIFO ledger equation holds along any event sequence. -/
theorem run_admitted_range (cfg : QueueConfig) :
    ∀ (es : List QueueEvent) (s : MyQueue),
      s.admittedOrder ++ s.promisesToExecute.map QueuedPromise.id
        = List.range s.nextId →
      (runQueue cfg s es).admittedOrder
          ++ (runQueue cfg s es).promisesToExecute.map QueuedPromise.id
        = List.range (runQueue cfg s es).nextId := by
  intro es
  induction es with
  | nil => intro s h; exact h
  | cons e es ih => intro s h; exact ih _ (step_admitted_range cfg s e h)

/-- C1: for every configuration and every sequence of submissions and
settlements, the size of the In-Flight Registry
(`numberOfExecutingPromises`) never exceeds
`maxNumberOfConcurrentPromises`: every insertion into
`promisesBeingExecuted` is guarded by the strict size check of
`canExecuteMorePromises`, and settlements only remove entries. -/
theorem executing_never_exceeds_maxConcurrent
    (cfg : QueueConfig) (es : List QueueEvent) :
    numberOfExecutingPromises (runQueue cfg initialQueue es)
      ≤ cfg.maxNumberOfConcurrentPromises :=
  run_executing_le cfg es initialQueue (Nat.zero_le _)

/-- C3: tasks are admitted in exactly their submission order: after any
event sequence, the admission history followed by the ids still pending
equals the full id sequence in submission order — the admission history
is an order-preserving prefix of the submission order. -/
theorem admission_order_is_submission_order
    (cfg : QueueConfig) (es : List QueueEvent) :
    (runQueue cfg initialQueue es).admittedOrder
        ++ (runQueue cfg initialQueue es).promisesToExecute.map QueuedPromise.id
      = List.range (runQueue cfg initialQueue es).nextId :=
  run_admitted_range cfg es initialQueue rfl

/-- C5: the admission check prunes exactly the timestamps strictly older
than `now - unitOfTimeMillis` (a timestamp exactly at the threshold is
kept), and then answers yes exactly when the registry size is strictly
below `maxNumberOfConcurrentPromises` and the pruned log length is
strictly below `maxThroughputPerUnitTime`. -/
theorem canExecuteMorePromises_boundary (cfg : QueueConfig) (s : MyQueue) :
    (canExecuteMorePromises cfg s).2 =
      { s with
          promiseCompletedTimesLog :=
            s.promiseCompletedTimesLog.filter
              (fun time => !decide (time < s.now - cfg.unitOfTimeMillis)) } ∧
    ((canExecuteMorePromises cfg s).1 = true ↔
      numberOfExecutingPromises s < cfg.maxNumberOfConcurrentPromises ∧
        (canExecuteMorePromises cfg s).2.promiseCompletedTimesLog.length <
          cfg.maxThroughputPerUnitTime) := by
  constructor
  · simp only [canExecuteMorePromises, prunedCompletedTimes]
    congr 1
    refine List.filter_congr ?_
    intro t _
    simp only [← Nat.not_lt, decide_not]
  · simp [canExecuteMorePromises, numberOfExecutingPromises]

/-- C7: construction with an absent options object yields the defaults
`maxNumberOfConcurrentPromises = 1`, `unitOfTimeMillis = 100`,
`maxThroughputPerUnitTime = 1000`; with a partial object each absent
option keeps its default and each supplied value — including `0` —
overrides it. -/
theorem constructor_option_defaults (o : QueueOptions) :
    mkQueueConfig none = ⟨1, 100, 1000⟩ ∧
    (mkQueueConfig (some o)).maxNumberOfConcurrentPromises
        = o.maxNumberOfConcurrentPromises.getD 1 ∧
    (mkQueueConfig (some o)).unitOfTimeMillis = o.unitOfTimeMillis.getD 100 ∧
    (mkQueueConfig (some o)).maxThroughputPerUnitTime
        = o.maxThroughputPerUnitTime.getD 1000 ∧
    mkQueueConfig (some ⟨some 0, some 0, some 0⟩) = ⟨0, 0, 0⟩ :=
  ⟨rfl, rfl, rfl, rfl, rfl⟩

/-- C10: a full admission-loop invocation terminates after moving some
number `k ≤ numberOfQueuedPromises` of tasks — one task removed from the
head of the Pending Ledger per iteration — and admits exactly those `k`
head tasks (`execute` is a total function of the embedding, so
termination itself is established by its definition). -/
theorem execute_admits_head_tasks (cfg : QueueConfig) (s : MyQueue) :
    ∃ k ≤ numberOfQueuedPromises s,
      (execute cfg s).promisesToExecute = s.promisesToExecute.drop k ∧
      (execute cfg s).admittedOrder
        = s.admittedOrder ++ (s.promisesToExecute.take k).map QueuedPromise.id := by
  obtain ⟨k, hk, h⟩ := execute_shape cfg s
  exact ⟨k, hk, by rw [h], by rw [h]⟩


/-- C2 counterexample: with `maxNumberOfConcurrentPromises = 2`,
`unitOfTimeMillis = 100`, `maxThroughputPerUnitTime = 1`, two tasks are
admitted together and both complete inside one window, so the pruned
Throughput Log holds 2 > 1 completions — the throughput check gates
admissions only, while completions of already-in-flight tasks are
recorded unconditionally. -/
theorem window_cap_exceeded_counterexample :
    validTrace ⟨2, 100, 1⟩ initialQueue
        [.submit 0 false, .submit 0 false, .settle 10 0 true, .settle 20 1 true]
      = true ∧
    (QueueConfig.mk 2 100 1).maxThroughputPerUnitTime <
      windowCount ⟨2, 100, 1⟩ 20
        (runQueue ⟨2, 100, 1⟩ initialQueue
          [.submit 0 false, .submit 0 false, .settle 10 0 true,
           .settle 20 1 true]) := by
  decide

/-- C2 amended: along any valid event sequence, the number of completion
timestamps within the trailing window — measured at any instant `t` —
plus the number of in-flight tasks never exceeds
`(maxThroughputPerUnitTime - 1) + maxNumberOfConcurrentPromises`; in
particular the within-window completion count can overshoot the
throughput cap by at most `maxNumberOfConcurrentPromises - 1` (so for
`maxNumberOfConcurrentPromises = 1` the original cap does hold). -/
theorem window_completions_bounded (cfg : QueueConfig) (es : List QueueEvent)
    (t : Nat) (hv : validTrace cfg initialQueue es = true) :
    windowCount cfg t (runQueue cfg initialQueue es)
        + numberOfExecutingPromises (runQueue cfg initialQueue es) ≤
      (cfg.maxThroughputPerUnitTime - 1) + cfg.maxNumberOfConcurrentPromises := by
  have hb := run_sum_le cfg es initialQueue hv (by simp [initialQueue])
  have hf :
      windowCount cfg t (runQueue cfg initialQueue es) ≤
        (runQueue cfg initialQueue es).promiseCompletedTimesLog.length := by
    simp only [windowCount]
    exact List.length_filter_le _ _
  simp only [numberOfExecutingPromises]
  omega

/-- Witness for the amended C2 bound at a concrete valid trace. -/
theorem window_completions_bounded_witness :
    validTrace ⟨2, 100, 1⟩ initialQueue [.submit 0 false, .settle 5 0 true] = true ∧
    windowCount ⟨2, 100, 1⟩ 5
          (runQueue ⟨2, 100, 1⟩ initialQueue [.submit 0 false, .settle 5 0 true])
        + numberOfExecutingPromises
            (runQueue ⟨2, 100, 1⟩ initialQueue [.submit 0 false, .settle 5 0 true]) ≤
      ((QueueConfig.mk 2 100 1).maxThroughputPerUnitTime - 1)
        + (QueueConfig.mk 2 100 1).maxNumberOfConcurrentPromises :=
  ⟨by decide,
    window_completions_bounded ⟨2, 100, 1⟩ [.submit 0 false, .settle 5 0 true] 5
      (by decide)⟩


theorem stateC6_eq :
    stateC6 = ⟨[⟨1, false⟩], [], [1], [0], [(0, true)], [0], 2, 0⟩ := by decide

/-- C6 counterexample: after the scenario's whole event sequence the
second task has never been admitted (it is still pending), only the
first task's handle ever settled, nothing is in flight, and no
settlement event for the second task is possible at any later time — so
the claim's "both tasks eventually settle" is false: nothing re-invokes
the admission loop once the throughput check has denied it. -/
theorem second_task_starves_counterexample :
    validTrace cfgC6 initialQueue traceC6 = true ∧
    stateC6.settledOutcomes = [(0, true)] ∧
    stateC6.promisesToExecute.map QueuedPromise.id = [1] ∧
    stateC6.promisesBeingExecuted = [] ∧
    validEvent stateC6 (.settle 1000 1 true) = false ∧
    validEvent stateC6 (.settle 1000 1 false) = false := by
  decide

/-- C6 amended: in the scenario the first task completes at time 0 and
the second is not admitted by the settlement-triggered admission check;
an admission check run at any time up to one window (100 ms) past that
completion still denies it, and one run at least ~100 ms (here 101 ms)
past it would admit it — but no event of the scenario ever runs such a
check, so the second task stays queued with nothing in flight and never
settles. -/
theorem second_task_blocked_one_window (tEarly tLate : Nat)
    (hE : tEarly ≤ 100) (hL : 101 ≤ tLate) :
    stateC6.promisesToExecute.map QueuedPromise.id = [1] ∧
    stateC6.promisesBeingExecuted = [] ∧
    stateC6.settledOutcomes = [(0, true)] ∧
    (execute cfgC6 { stateC6 with now := tEarly }).promisesToExecute
        = stateC6.promisesToExecute ∧
    (execute cfgC6 { stateC6 with now := tLate }).admittedOrder = [0, 1] := by
  rw [stateC6_eq]
  refine ⟨by decide, by decide, by decide, ?_, ?_⟩
  · have h0 : tEarly - 100 = 0 := Nat.sub_eq_zero_of_le hE
    simp [execute, executeLoop, canExecuteMorePromises, prunedCompletedTimes, cfgC6, h0]
  · have h0 : ¬ (tLate - 100 ≤ 0) := by omega
    have h1 : (100 : Nat) < tLate := by omega
    have h2 : ¬ (tLate ≤ 100) := by omega
    simp [execute, executeLoop, canExecuteMorePromises, prunedCompletedTimes, cfgC6,
      h0, h1, h2]

/-- Witness for the amended C6 statement at concrete check times. -/
theorem second_task_blocked_one_window_witness :
    ((50 : Nat) ≤ 100 ∧ (101 : Nat) ≤ 200) ∧
    (stateC6.promisesToExecute.map QueuedPromise.id = [1] ∧
      stateC6.promisesBeingExecuted = [] ∧
      stateC6.settledOutcomes = [(0, true)] ∧
      (execute cfgC6 { stateC6 with now := 50 }).promisesToExecute
          = stateC6.promisesToExecute ∧
      (execute cfgC6 { stateC6 with now := 200 }).admittedOrder = [0, 1]) :=
  ⟨⟨by decide, by decide⟩,
    second_task_blocked_one_window 50 200 (by decide) (by decide)⟩

/-- C8: a settlement for an id with no registered resolution callback
delivers nothing to any handle (and throws nothing — the handlers are
total), yet the remaining bookkeeping still runs unchanged: the registry
entry is released, a completion timestamp is recorded, and the admission
loop is re-invoked, exactly as `finalizePromise` does for a matching
settlement. -/
theorem missing_callback_settlement (cfg : QueueConfig) (s : MyQueue) (id : Nat)
    (h : id ∉ s.promiseExecutedCallbacks) :
    (onPromiseFulfilled cfg id s).settledOutcomes = s.settledOutcomes ∧
    (onPromiseRejected cfg id s).settledOutcomes = s.settledOutcomes ∧
    onPromiseFulfilled cfg id s =
      execute cfg
        { s with
            promisesBeingExecuted :=
              s.promisesBeingExecuted.filter (fun p => p.id ≠ id)
            promiseExecutedCallbacks :=
              s.promiseExecutedCallbacks.filter (fun i => i ≠ id)
            promiseCompletedTimesLog := s.promiseCompletedTimesLog ++ [s.now] } ∧
    onPromiseRejected cfg id s =
      execute cfg
        { s with
            promisesBeingExecuted :=
              s.promisesBeingExecuted.filter (fun p => p.id ≠ id)
            promiseExecutedCallbacks :=
              s.promiseExecutedCallbacks.filter (fun i => i ≠ id)
            promiseCompletedTimesLog := s.promiseCompletedTimesLog ++ [s.now] } := by
  have hful : onPromiseFulfilled cfg id s =
      execute cfg
        { s with
            promisesBeingExecuted :=
              s.promisesBeingExecuted.filter (fun p => p.id ≠ id)
            promiseExecutedCallbacks :=
              s.promiseExecutedCallbacks.filter (fun i => i ≠ id)
            promiseCompletedTimesLog := s.promiseCompletedTimesLog ++ [s.now] } := by
    simp [onPromiseFulfilled, finalizePromise, h]
  have hrej : onPromiseRejected cfg id s =
      execute cfg
        { s with
            promisesBeingExecuted :=
              s.promisesBeingExecuted.filter (fun p => p.id ≠ id)
            promiseExecutedCallbacks :=
              s.promiseExecutedCallbacks.filter (fun i => i ≠ id)
            promiseCompletedTimesLog := s.promiseCompletedTimesLog ++ [s.now] } := by
    simp [onPromiseRejected, finalizePromise, h]
  refine ⟨?_, ?_, hful, hrej⟩
  · rw [hful, execute_settledOutcomes]
  · rw [hrej, execute_settledOutcomes]

/-- Witness for the missing-callback settlement behaviour on a concrete
state with an empty callback table. -/
theorem missing_callback_settlement_witness :
    ((5 : Nat) ∉ initialQueue.promiseExecutedCallbacks) ∧
    ((onPromiseFulfilled ⟨1, 100, 1000⟩ 5 initialQueue).settledOutcomes
        = initialQueue.settledOutcomes ∧
      (onPromiseRejected ⟨1, 100, 1000⟩ 5 initialQueue).settledOutcomes
        = initialQueue.settledOutcomes ∧
      onPromiseFulfilled ⟨1, 100, 1000⟩ 5 initialQueue =
        execute ⟨1, 100, 1000⟩
          { initialQueue with
              promisesBeingExecuted :=
                initialQueue.promisesBeingExecuted.filter (fun p => p.id ≠ 5)
              promiseExecutedCallbacks :=
                initialQueue.promiseExecutedCallbacks.filter (fun i => i ≠ 5)
              promiseCompletedTimesLog :=
                initialQueue.promiseCompletedTimesLog ++ [initialQueue.now] } ∧
      onPromiseRejected ⟨1, 100, 1000⟩ 5 initialQueue =
        execute ⟨1, 100, 1000⟩
          { initialQueue with
              promisesBeingExecuted :=
                initialQueue.promisesBeingExecuted.filter (fun p => p.id ≠ 5)
              promiseExecutedCallbacks :=
                initialQueue.promiseExecutedCallbacks.filter (fun i => i ≠ 5)
              promiseCompletedTimesLog :=
                initialQueue.promiseCompletedTimesLog ++ [initialQueue.now] }) :=
  ⟨by decide, missing_callback_settlement ⟨1, 100, 1000⟩ initialQueue 5 (by decide)⟩



/-- Filtering tasks by id and then projecting ids is projecting ids and
then filtering. -/
theorem exec_map_filter (E : List QueuedPromise) (i : Nat) :
    (E.filter (fun q => q.id ≠ i)).map QueuedPromise.id
      = (E.map QueuedPromise.id).filter (fun x => x ≠ i) := by
  induction E with
  | nil => rfl
  | cons q E ih =>
    by_cases h : q.id = i <;> simp_all [List.filter_cons]

/-- In a duplicate-free list, removing one occurring element is a
permutation-inverse of consing it. -/
theorem nodup_filter_ne_perm {l : List Nat} {a : Nat}
    (h : l.Nodup) (ha : a ∈ l) :
    l.Perm (a :: l.filter (fun x => x ≠ a)) := by
  induction l with
  | nil => cases ha
  | cons b l ih =>
    rcases List.mem_cons.mp ha with rfl | hb
    · have hal : a ∉ l := (List.nodup_cons.mp h).1
      have hfl : l.filter (fun x => !decide (x = a)) = l := by
        refine List.filter_eq_self.mpr ?_
        intro x hx
        have hxa : x ≠ a := fun hEq => hal (hEq ▸ hx)
        simp [hxa]
      simp [List.filter_cons, hfl]
    · have hnd := (List.nodup_cons.mp h).2
      have hba : ¬ (b = a) := fun hEq => (List.nodup_cons.mp h).1 (hEq ▸ hb)
      have hstep : (b :: l).Perm (b :: a :: l.filter (fun x => x ≠ a)) :=
        (ih hnd hb).cons b
      refine hstep.trans ?_
      have hbl : (b :: l).filter (fun x => x ≠ a) = b :: l.filter (fun x => x ≠ a) := by
        simp [List.filter_cons, hba]
      rw [hbl]
      exact List.Perm.swap a b _

/-- Members of a list whose image under `QueuedPromise.id` is
duplicate-free are determined by their id. -/
theorem eq_of_mem_map_nodup {l : List QueuedPromise}
    (h : (l.map QueuedPromise.id).Nodup)
    {p q : QueuedPromise} (hp : p ∈ l) (hq : q ∈ l) (hid : p.id = q.id) :
    p = q := by
  induction l with
  | nil => cases hp
  | cons r l ih =>
    simp only [List.map_cons, List.nodup_cons] at h
    rcases List.mem_cons.mp hp with rfl | hp' <;>
      rcases List.mem_cons.mp hq with rfl | hq'
    · rfl
    · exfalso
      apply h.1
      rw [hid]
      exact List.mem_map_of_mem QueuedPromise.id hq'
    · exfalso
      apply h.1
      rw [← hid]
      exact List.mem_map_of_mem QueuedPromise.id hp'
    · exact ih h.2 hp' hq'


theorem initialQueue_wf : QueueWF initialQueue := by
  constructor <;> simp [initialQueue]

/-- The admission loop preserves well-formedness: it permutes tasks
between the pending ledger and the registry and touches no ids. -/
theorem execute_wf (cfg : QueueConfig) (s : MyQueue) (h : QueueWF s) :
    QueueWF (execute cfg s) := by
  have hmp : ((execute cfg s).promisesToExecute.map QueuedPromise.id
        ++ (execute cfg s).promisesBeingExecuted.map QueuedPromise.id).Perm
      (s.promisesToExecute.map QueuedPromise.id
        ++ s.promisesBeingExecuted.map QueuedPromise.id) := by
    have hp := (execute_union_perm cfg s).map QueuedPromise.id
    simpa [List.map_append] using hp
  have htask : ∀ p, p ∈ (execute cfg s).promisesToExecute
      ∨ p ∈ (execute cfg s).promisesBeingExecuted →
      p ∈ s.promisesToExecute ∨ p ∈ s.promisesBeingExecuted := by
    intro p hp
    have : p ∈ (execute cfg s).promisesToExecute
        ++ (execute cfg s).promisesBeingExecuted :=
      List.mem_append.mpr hp
    exact List.mem_append.mp ((execute_union_perm cfg s).mem_iff.mp this)
  constructor
  · intro p hp
    rw [execute_nextId]
    rcases htask p (Or.inl hp) with hc | hc
    · exact h.pend_lt p hc
    · exact h.exec_lt p hc
  · intro p hp
    rw [execute_nextId]
    rcases htask p (Or.inr hp) with hc | hc
    · exact h.pend_lt p hc
    · exact h.exec_lt p hc
  · intro q hq
    rw [execute_nextId]
    rw [execute_settledOutcomes] at hq
    exact h.settled_lt q hq
  · rw [execute_settledOutcomes]
    have h2 := hmp.append_right (s.settledOutcomes.map Prod.fst)
    exact h2.nodup_iff.mpr h.nodup
  · intro i
    rw [execute_promiseExecutedCallbacks, h.cb_char i]
    have := hmp.mem_iff (a := i)
    simp only [List.mem_append] at this
    exact this.symm

/-- A matching settlement (the settling id really is registered)
preserves well-formedness through outcome delivery and
`finalizePromise`. -/
theorem deliver_finalize_wf (cfg : QueueConfig) (s : MyQueue) (id : Nat) (tf : Bool)
    (hmem : id ∈ s.promisesBeingExecuted.map QueuedPromise.id)
    (h : QueueWF s) :
    QueueWF (finalizePromise cfg id
      { s with settledOutcomes := s.settledOutcomes ++ [(id, tf)] }) := by
  obtain ⟨u, hu, huid⟩ := List.mem_map.mp hmem
  have hEm_nodup : (s.promisesBeingExecuted.map QueuedPromise.id).Nodup :=
    (h.nodup.of_append_left).of_append_right
  have hperm1 : (s.promisesBeingExecuted.map QueuedPromise.id).Perm
      (id :: (s.promisesBeingExecuted.map QueuedPromise.id).filter (fun x => x ≠ id)) :=
    nodup_filter_ne_perm hEm_nodup hmem
  have hE'm : ((s.promisesBeingExecuted.filter (fun q => q.id ≠ id)).map QueuedPromise.id)
      = (s.promisesBeingExecuted.map QueuedPromise.id).filter (fun x => x ≠ id) :=
    exec_map_filter s.promisesBeingExecuted id
  have hid_notin_P : id ∉ s.promisesToExecute.map QueuedPromise.id := by
    intro hcontra
    exact (List.disjoint_of_nodup_append h.nodup.of_append_left) hcontra hmem
  simp only [finalizePromise]
  apply execute_wf
  constructor
  · intro p hp
    exact h.pend_lt p hp
  · intro p hp
    exact h.exec_lt p (List.mem_of_mem_filter hp)
  · intro q hq
    rcases List.mem_append.mp hq with hq | hq
    · exact h.settled_lt q hq
    · rcases List.mem_singleton.mp hq with rfl
      exact huid ▸ h.exec_lt u hu
  · simp only [List.map_append, List.map_cons, List.map_nil]
    rw [hE'm]
    have key :
        ((s.promisesToExecute.map QueuedPromise.id
              ++ (s.promisesBeingExecuted.map QueuedPromise.id).filter (fun x => x ≠ id))
            ++ (s.settledOutcomes.map Prod.fst ++ [id])).Perm
          ((s.promisesToExecute.map QueuedPromise.id
              ++ s.promisesBeingExecuted.map QueuedPromise.id)
            ++ s.settledOutcomes.map Prod.fst) := by
      have h1 : (s.promisesToExecute.map QueuedPromise.id
            ++ s.promisesBeingExecuted.map QueuedPromise.id).Perm
          (id :: (s.promisesToExecute.map QueuedPromise.id
            ++ (s.promisesBeingExecuted.map QueuedPromise.id).filter
                (fun x => x ≠ id))) :=
        (List.Perm.append_left _ hperm1).trans List.perm_middle
      refine (List.Perm.append_left _ (List.perm_append_singleton _ _)).trans ?_
      refine (List.perm_middle).trans ?_
      exact (h1.append_right _).symm
    exact key.nodup_iff.mpr h.nodup
  · intro i
    simp only [List.mem_filter, decide_eq_true_eq, h.cb_char i, hE'm, ne_eq]
    constructor
    · rintro ⟨hP | hE, hne⟩
      · exact Or.inl hP
      · exact Or.inr ⟨hE, hne⟩
    · rintro (hP | ⟨hE, hne⟩)
      · exact ⟨Or.inl hP, fun hEq => hid_notin_P (hEq ▸ hP)⟩
      · exact ⟨Or.inr hE, hne⟩

/-- Every valid event preserves well-formedness. -/
theorem stepQueue_wf (cfg : QueueConfig) (s : MyQueue) (e : QueueEvent)
    (hv : validEvent s e = true) (h : QueueWF s) :
    QueueWF (stepQueue cfg s e) := by
  cases e with
  | submit time throwsSync =>
    simp only [stepQueue, addPromise]
    apply execute_wf
    have hall : ∀ x ∈ (s.promisesToExecute.map QueuedPromise.id
        ++ s.promisesBeingExecuted.map QueuedPromise.id
        ++ s.settledOutcomes.map Prod.fst), x < s.nextId := by
      intro x hx
      rcases List.mem_append.mp hx with hx | hx
      · rcases List.mem_append.mp hx with hx | hx
        · obtain ⟨p, hp, rfl⟩ := List.mem_map.mp hx
          exact h.pend_lt p hp
        · obtain ⟨p, hp, rfl⟩ := List.mem_map.mp hx
          exact h.exec_lt p hp
      · obtain ⟨q, hq, rfl⟩ := List.mem_map.mp hx
        exact h.settled_lt q hq
    constructor
    · intro p hp
      rcases List.mem_append.mp hp with hp | hp
      · exact Nat.lt_succ_of_lt (h.pend_lt p hp)
      · rcases List.mem_singleton.mp hp with rfl
        exact Nat.lt_succ_self _
    · intro p hp
      exact Nat.lt_succ_of_lt (h.exec_lt p hp)
    · intro q hq
      exact Nat.lt_succ_of_lt (h.settled_lt q hq)
    · have key :
          (((s.promisesToExecute ++ [(⟨s.nextId, throwsSync⟩ : QueuedPromise)]).map
                  QueuedPromise.id
                ++ s.promisesBeingExecuted.map QueuedPromise.id)
              ++ s.settledOutcomes.map Prod.fst).Perm
            (s.nextId ::
              ((s.promisesToExecute.map QueuedPromise.id
                  ++ s.promisesBeingExecuted.map QueuedPromise.id)
                ++ s.settledOutcomes.map Prod.fst)) := by
        simp only [List.map_append, List.map_cons, List.map_nil]
        exact ((List.perm_append_singleton _ _).append_right _).append_right _
      have hnotin : s.nextId ∉
          (s.promisesToExecute.map QueuedPromise.id
              ++ s.promisesBeingExecuted.map QueuedPromise.id)
            ++ s.settledOutcomes.map Prod.fst := by
        intro hcontra
        exact absurd (hall _ hcontra) (Nat.lt_irrefl _)
      have hcons : (s.nextId ::
          ((s.promisesToExecute.map QueuedPromise.id
              ++ s.promisesBeingExecuted.map QueuedPromise.id)
            ++ s.settledOutcomes.map Prod.fst)).Nodup :=
        List.nodup_cons.mpr ⟨hnotin, h.nodup⟩
      exact key.nodup_iff.mpr hcons
    · intro i
      simp only [List.mem_append, List.mem_singleton, List.map_append,
        List.map_cons, List.map_nil, h.cb_char i]
      tauto
  | settle time id isSuccess =>
    obtain ⟨-, u, hu, huid, -⟩ := validEvent_settle_elim hv
    have hmem : id ∈ s.promisesBeingExecuted.map QueuedPromise.id := by
      rw [← huid]
      exact List.mem_map_of_mem QueuedPromise.id hu
    have hcb : id ∈ s.promiseExecutedCallbacks := (h.cb_char id).mpr (Or.inr hmem)
    have h' : QueueWF { s with now := time } :=
      ⟨h.pend_lt, h.exec_lt, h.settled_lt, h.nodup, h.cb_char⟩
    cases isSuccess with
    | true =>
      simp only [stepQueue, if_true, onPromiseFulfilled]
      rw [if_pos hcb]
      exact deliver_finalize_wf cfg { s with now := time } id true hmem h'
    | false =>
      simp only [stepQueue, if_false, onPromiseRejected, Bool.false_eq_true]
      rw [if_pos hcb]
      exact deliver_finalize_wf cfg { s with now := time } id false hmem h'

/-- Well-formedness holds after any valid trace. -/
theorem run_wf (cfg : QueueConfig) :
    ∀ (es : List QueueEvent) (s : MyQueue),
      validTrace cfg s es = true → QueueWF s → QueueWF (runQueue cfg s es) := by
  intro es
  induction es with
  | nil => intro s _ h; exact h
  | cons e es ih =>
    intro s hv h
    simp only [validTrace, Bool.and_eq_true] at hv
    exact ih _ hv.2 (stepQueue_wf cfg s e hv.1 h)

theorem runQueue_nil (cfg : QueueConfig) (s : MyQueue) : runQueue cfg s [] = s := rfl

theorem runQueue_cons (cfg : QueueConfig) (s : MyQueue) (e : QueueEvent)
    (es : List QueueEvent) :
    runQueue cfg s (e :: es) = runQueue cfg (stepQueue cfg s e) es := rfl

/-- Running a concatenated event sequence is running the pieces in
order. -/
theorem runQueue_append (cfg : QueueConfig) (s : MyQueue)
    (es es' : List QueueEvent) :
    runQueue cfg s (es ++ es') = runQueue cfg (runQueue cfg s es) es' := by
  simp [runQueue, List.foldl_append]

/-- Validity of a concatenated trace splits at the junction state. -/
theorem validTrace_append (cfg : QueueConfig) :
    ∀ (es es' : List QueueEvent) (s : MyQueue),
      validTrace cfg s (es ++ es')
        = (validTrace cfg s es && validTrace cfg (runQueue cfg s es) es') := by
  intro es
  induction es with
  | nil => intro es' s; simp [validTrace, runQueue_nil]
  | cons e es ih =>
    intro es' s
    simp only [List.cons_append, validTrace, List.append_eq, ih, runQueue_cons,
      Bool.and_assoc]

/-- One valid event appends to the delivered-outcome history exactly the
outcome the event carries (nothing for a submission). -/
theorem stepQueue_settled (cfg : QueueConfig) (s : MyQueue) (e : QueueEvent)
    (hv : validEvent s e = true) (h : QueueWF s) :
    (stepQueue cfg s e).settledOutcomes
      = s.settledOutcomes ++ settleEventsOutcomes [e] := by
  cases e with
  | submit time throwsSync =>
    simp only [stepQueue, addPromise, settleEventsOutcomes]
    rw [execute_settledOutcomes]
    simp
  | settle time id isSuccess =>
    obtain ⟨-, u, hu, huid, -⟩ := validEvent_settle_elim hv
    have hmem : id ∈ s.promisesBeingExecuted.map QueuedPromise.id := by
      rw [← huid]
      exact List.mem_map_of_mem QueuedPromise.id hu
    have hcb : id ∈ s.promiseExecutedCallbacks := (h.cb_char id).mpr (Or.inr hmem)
    cases isSuccess with
    | true =>
      simp only [stepQueue, if_true, onPromiseFulfilled, finalizePromise,
        settleEventsOutcomes]
      rw [if_pos hcb, execute_settledOutcomes]
    | false =>
      simp only [stepQueue, Bool.false_eq_true, if_false, onPromiseRejected,
        finalizePromise, settleEventsOutcomes]
      rw [if_pos hcb, execute_settledOutcomes]

/-- Along a valid trace the delivered outcomes are exactly the outcomes
the settlement events carry, in order. -/
theorem run_settled (cfg : QueueConfig) :
    ∀ (es : List QueueEvent) (s : MyQueue),
      validTrace cfg s es = true → QueueWF s →
      (runQueue cfg s es).settledOutcomes
        = s.settledOutcomes ++ settleEventsOutcomes es := by
  intro es
  induction es with
  | nil => intro s _ _; simp [runQueue_nil, settleEventsOutcomes]
  | cons e es ih =>
    intro s hv h
    simp only [validTrace, Bool.and_eq_true] at hv
    rw [runQueue_cons, ih _ hv.2 (stepQueue_wf cfg s e hv.1 h),
      stepQueue_settled cfg s e hv.1 h]
    cases e <;> simp [settleEventsOutcomes]

/-- A registered task whose supplier threw synchronously stays
registered across any further valid events. -/
theorem run_flagged_stays (cfg : QueueConfig) :
    ∀ (es : List QueueEvent) (s : MyQueue) (p : QueuedPromise),
      validTrace cfg s es = true → QueueWF s →
      p ∈ s.promisesBeingExecuted → p.throwsSync = true →
      p ∈ (runQueue cfg s es).promisesBeingExecuted := by
  intro es
  induction es with
  | nil => intro s p _ _ hp _; exact hp
  | cons e es ih =>
    intro s p hv h hp hth
    simp only [validTrace, Bool.and_eq_true] at hv
    rw [runQueue_cons]
    refine ih _ p hv.2 (stepQueue_wf cfg s e hv.1 h) ?_ hth
    cases e with
    | submit time throwsSync =>
      exact execute_mem_executing cfg _ hp
    | settle time id isSuccess =>
      obtain ⟨-, u, hu, huid, huth⟩ := validEvent_settle_elim hv.1
      have hEm_nodup : (s.promisesBeingExecuted.map QueuedPromise.id).Nodup :=
        (h.nodup.of_append_left).of_append_right
      have hpid : p.id ≠ id := by
        intro hEq
        have hpu : p = u := eq_of_mem_map_nodup hEm_nodup hp hu (hEq.trans huid.symm)
        rw [hpu, huth] at hth
        exact Bool.false_ne_true hth
      have hpfil : p ∈ s.promisesBeingExecuted.filter (fun q => q.id ≠ id) :=
        List.mem_filter.mpr ⟨hp, by simpa using hpid⟩
      cases isSuccess <;>
        · simp only [stepQueue, onPromiseFulfilled, onPromiseRejected, if_true,
            Bool.false_eq_true, if_false, finalizePromise]
          split <;> exact execute_mem_executing cfg _ hpfil

/-- C4: along any valid event sequence the outcomes delivered to the
handles returned by `addPromise` are exactly the outcomes the suppliers'
settlements carry, in order — each handle resolves with the supplier's
value precisely when the supplier's promise fulfilled and rejects with
its error precisely when it rejected — and no handle is settled twice
(its id appears at most once in the delivered history, the resolution
callback being deleted together with delivery). -/
theorem handle_settles_exactly_once (cfg : QueueConfig) (es : List QueueEvent)
    (hv : validTrace cfg initialQueue es = true) :
    (runQueue cfg initialQueue es).settledOutcomes = settleEventsOutcomes es ∧
    ((runQueue cfg initialQueue es).settledOutcomes.map Prod.fst).Nodup := by
  have hwf := run_wf cfg es initialQueue hv initialQueue_wf
  constructor
  · have := run_settled cfg es initialQueue hv initialQueue_wf
    simpa [initialQueue] using this
  · exact hwf.nodup.of_append_right

/-- Witness for exactly-once settlement on a concrete valid trace with
one fulfilled and one rejected task. -/
theorem handle_settles_exactly_once_witness :
    validTrace ⟨2, 100, 1000⟩ initialQueue
        [.submit 0 false, .submit 0 false, .settle 10 0 true, .settle 20 1 false]
      = true ∧
    ((runQueue ⟨2, 100, 1000⟩ initialQueue
          [.submit 0 false, .submit 0 false, .settle 10 0 true,
           .settle 20 1 false]).settledOutcomes
        = settleEventsOutcomes
            [.submit 0 false, .submit 0 false, .settle 10 0 true,
             .settle 20 1 false] ∧
      (((runQueue ⟨2, 100, 1000⟩ initialQueue
            [.submit 0 false, .submit 0 false, .settle 10 0 true,
             .settle 20 1 false]).settledOutcomes.map Prod.fst)).Nodup) :=
  ⟨by decide,
    handle_settles_exactly_once ⟨2, 100, 1000⟩
      [.submit 0 false, .submit 0 false, .settle 10 0 true, .settle 20 1 false]
      (by decide)⟩

/-- C9: a supplier that throws synchronously is caught by `execute`'s
`try`/`catch` after its task was already registered: the admission loop
stops for that invocation with the task left in the In-Flight Registry
(first conjunct — the remaining ledger is not drained even though the
checks passed), and from then on, across all further valid events, the
task stays registered, its slot stays consumed, its handle never settles
and its callback entry is never reclaimed (second conjunct). -/
theorem sync_throwing_supplier_leaks_slot :
    (∀ (cfg : QueueConfig) (s : MyQueue) (p : QueuedPromise)
        (rest : List QueuedPromise),
        s.promisesToExecute = p :: rest →
        p.throwsSync = true →
        (canExecuteMorePromises cfg s).1 = true →
        execute cfg s =
          { s with
              promisesToExecute := rest
              promisesBeingExecuted := s.promisesBeingExecuted ++ [p]
              admittedOrder := s.admittedOrder ++ [p.id]
              promiseCompletedTimesLog := prunedCompletedTimes cfg s }) ∧
    (∀ (cfg : QueueConfig) (es es' : List QueueEvent) (p : QueuedPromise),
        validTrace cfg initialQueue (es ++ es') = true →
        p ∈ (runQueue cfg initialQueue es).promisesBeingExecuted →
        p.throwsSync = true →
        p ∈ (runQueue cfg initialQueue (es ++ es')).promisesBeingExecuted ∧
          (∀ b, (p.id, b) ∉ (runQueue cfg initialQueue (es ++ es')).settledOutcomes) ∧
          p.id ∈ (runQueue cfg initialQueue (es ++ es')).promiseExecutedCallbacks) := by
  constructor
  · intro cfg s p rest hp hth hok
    rw [execute, executeLoop]
    simp only [canExecuteMorePromises] at hok
    simp only [canExecuteMorePromises, hp, hth, hok, if_true]
  · intro cfg es es' p hv hp hth
    rw [validTrace_append] at hv
    simp only [Bool.and_eq_true] at hv
    have hwf1 := run_wf cfg es initialQueue hv.1 initialQueue_wf
    rw [runQueue_append]
    have hmem := run_flagged_stays cfg es' _ p hv.2 hwf1 hp hth
    have hwf2 := run_wf cfg es' _ hv.2 hwf1
    refine ⟨hmem, ?_, ?_⟩
    · intro b hcontra
      have hS : p.id ∈
          (runQueue cfg (runQueue cfg initialQueue es) es').settledOutcomes.map
            Prod.fst :=
        List.mem_map.mpr ⟨(p.id, b), hcontra, rfl⟩
      have hE : p.id ∈
          (runQueue cfg (runQueue cfg initialQueue es) es').promisesBeingExecuted.map
            QueuedPromise.id :=
        List.mem_map_of_mem QueuedPromise.id hmem
      exact (List.disjoint_of_nodup_append hwf2.nodup)
        (List.mem_append_right _ hE) hS
    · exact (hwf2.cb_char p.id).mpr
        (Or.inr (List.mem_map_of_mem QueuedPromise.id hmem))

/-- Witness for the leaked slot: one flagged task admitted, then a later
well-behaved submission; the flagged task is still registered, unsettled
and holding its callback. -/
theorem sync_throwing_supplier_leaks_slot_witness :
    (validTrace ⟨1, 100, 1000⟩ initialQueue
        ([QueueEvent.submit 0 true] ++ [QueueEvent.submit 5 false]) = true ∧
      (⟨0, true⟩ : QueuedPromise) ∈
        (runQueue ⟨1, 100, 1000⟩ initialQueue
          [QueueEvent.submit 0 true]).promisesBeingExecuted ∧
      (⟨0, true⟩ : QueuedPromise).throwsSync = true) ∧
    ((⟨0, true⟩ : QueuedPromise) ∈
        (runQueue ⟨1, 100, 1000⟩ initialQueue
          ([QueueEvent.submit 0 true] ++ [QueueEvent.submit 5 false])).promisesBeingExecuted ∧
      (∀ b, ((0 : Nat), b) ∉
        (runQueue ⟨1, 100, 1000⟩ initialQueue
          ([QueueEvent.submit 0 true] ++ [QueueEvent.submit 5 false])).settledOutcomes) ∧
      (0 : Nat) ∈
        (runQueue ⟨1, 100, 1000⟩ initialQueue
          ([QueueEvent.submit 0 true] ++ [QueueEvent.submit 5 false])).promiseExecutedCallbacks) :=
  ⟨⟨by decide, by decide, rfl⟩,
    sync_throwing_supplier_leaks_slot.2 ⟨1, 100, 1000⟩
      [QueueEvent.submit 0 true] [QueueEvent.submit 5 false] ⟨0, true⟩
      (by decide) (by decide) rfl⟩

/-- The fuel is irrelevant once it is at least the pending-ledger
length (each recursive call consumes one unit and one pending task), so
seeding the loop with the ledger length, as `execute` does, computes the
full while loop: the `fuel = 0` fallback is unreachable. -/
theorem executeLoop_fuel_irrelevant (cfg : QueueConfig) :
    ∀ (fuel1 fuel2 : Nat) (s : MyQueue),
      s.promisesToExecute.length ≤ fuel1 →
      s.promisesToExecute.length ≤ fuel2 →
      executeLoop cfg fuel1 s = executeLoop cfg fuel2 s := by
  intro fuel1
  induction fuel1 with
  | zero =>
    intro fuel2 s h1 h2
    have hnil : s.promisesToExecute = [] :=
      List.eq_nil_of_length_eq_zero (Nat.le_zero.mp h1)
    rw [executeLoop, executeLoop]
    simp only [canExecuteMorePromises, hnil]
  | succ fuel1 ih =>
    intro fuel2 s h1 h2
    rw [executeLoop, executeLoop]
    cases hp : s.promisesToExecute with
    | nil => simp only [canExecuteMorePromises, hp]
    | cons p rest =>
      cases fuel2 with
      | zero =>
        rw [hp] at h2
        exact absurd h2 (by simp)
      | succ fuel2 =>
        simp only [canExecuteMorePromises, hp]
        split
        · split
          · rfl
          · apply ih
            · rw [hp] at h1
              simpa using h1
            · rw [hp] at h2
              simpa using h2
        · rfl
